import Mathlib

/-!
# Verification of the omnidragon-io/contracts vanity-address search core

Shallow embedding, in Lean 4, of the Rust sources of the repository:

* `src/src/main.rs` — registry vanity generator (`calculate_create2_address`,
  `search_vanity_address`, argument validation in `main`);
* `src/vanity-generator/src/main.rs` — dragon vanity generator
  (`compute_create2_address`, `check_vanity_pattern`);
* `src/deploy/OmniDragonOracle/oracle-vanity-generator/src/main.rs` — oracle
  vanity generator (string-based `calculate_create2_address`,
  `is_perfect_match`, `calculate_match_score`, `BestMatch`, worker loop).

Bytes are modelled as `Nat` (kept below 256 by construction or hypothesis),
strings as `List Char`, and the Keccak-256 digest is implemented in full
(Keccak-f[1600] on 64-bit lanes as `Nat` with explicit reduction mod 2^64,
rate-1088 sponge with the original 0x01/0x80 multi-rate padding, as in the
sha3 crate's `Keccak256`).  Randomness (`rand::thread_rng`) and the values
other threads leave in the shared atomics are modelled as explicit input
streams, so each worker run is a deterministic function of its traces.
-/

/-! ## Hex encoding and decoding (the `hex` crate: `encode` is lowercase,
`decode` accepts both cases and fails on odd length or a non-hex digit) -/

/-- The sixteen lowercase hex digit characters, in value order. -/
def hexDigits : List Char :=
  String.toList "0123456789abcdef"

/-- The lowercase hex character of a nibble value (values ≥ 16 never arise
from a byte's nibbles; they default to '0'). -/
def nibbleChar (n : Nat) : Char :=
  hexDigits.getD n '0'

/-- `hex::encode`: each byte becomes its high nibble's digit then its low
nibble's digit, lowercase. -/
def hexEncode : List Nat → List Char
  | [] => []
  | b :: bs => nibbleChar (b / 16 % 16) :: nibbleChar (b % 16) :: hexEncode bs

/-- The value of one hex digit character, accepting both cases. -/
def hexVal (c : Char) : Option Nat :=
  if '0' ≤ c ∧ c ≤ '9' then some (c.toNat - 48)
  else if 'a' ≤ c ∧ c ≤ 'f' then some (c.toNat - 87)
  else if 'A' ≤ c ∧ c ≤ 'F' then some (c.toNat - 55)
  else none

/-- `hex::decode`: pairs of hex digits to bytes; `none` on odd length or an
invalid digit. -/
def hexDecode : List Char → Option (List Nat)
  | [] => some []
  | [_] => none
  | c1 :: c2 :: rest =>
    match hexVal c1, hexVal c2, hexDecode rest with
    | some v1, some v2, some bs => some ((16 * v1 + v2) :: bs)
    | _, _, _ => none

/-! ## Keccak-256 (the `sha3` crate's `Keccak256`) -/

/-- Bitwise xor of two 64-bit lanes. -/
def xor64 (a b : Nat) : Nat := Nat.xor a b

/-- Bitwise and of two 64-bit lanes. -/
def and64 (a b : Nat) : Nat := Nat.land a b

/-- Bitwise complement within 64 bits. -/
def not64 (a : Nat) : Nat := Nat.xor a (2 ^ 64 - 1)

/-- Left rotation of a 64-bit lane by `r` (with `r < 64`). -/
def rotl64 (r w : Nat) : Nat := w % 2 ^ (64 - r) * 2 ^ r + w / 2 ^ (64 - r)

/-- Lane `(x, y)` of a 5×5 Keccak state (stored row by row, index `x + 5y`),
coordinates taken mod 5. -/
def lane (st : List Nat) (x y : Nat) : Nat := st.getD (x % 5 + 5 * (y % 5)) 0

/-- Keccak θ step. -/
def keccakTheta (st : List Nat) : List Nat :=
  (List.range 25).map (fun i =>
    let x := i % 5
    let c := fun t =>
      xor64 (lane st t 0) (xor64 (lane st t 1) (xor64 (lane st t 2)
        (xor64 (lane st t 3) (lane st t 4))))
    let d := xor64 (c ((x + 4) % 5)) (rotl64 1 (c ((x + 1) % 5)))
    xor64 (st.getD i 0) d)

/-- The ρ rotation offsets, indexed like the state (`x + 5y`), one row of the
5×5 state per line. -/
def rotOffsets : List Nat :=
  [0, 1, 62, 28, 27] ++
    [36, 44, 6, 55, 20] ++
    [3, 10, 43, 25, 39] ++
    [41, 45, 15, 21, 8] ++
    [18, 2, 61, 56, 14]

/-- Keccak ρ and π steps: output lane `(X, Y)` is the source lane
`(X + 3Y, X)` rotated by its offset. -/
def keccakRhoPi (st : List Nat) : List Nat :=
  (List.range 25).map (fun j =>
    let x := (j % 5 + 3 * (j / 5)) % 5
    let y := j % 5
    rotl64 (rotOffsets.getD (x + 5 * y) 0) (lane st x y))

/-- Keccak χ step. -/
def keccakChi (st : List Nat) : List Nat :=
  (List.range 25).map (fun j =>
    let x := j % 5
    let y := j / 5
    xor64 (lane st x y) (and64 (not64 (lane st (x + 1) y)) (lane st (x + 2) y)))

/-- The 24 round constants of Keccak-f[1600]. -/
def roundConstants : List Nat :=
  [0x0000000000000001, 0x0000000000008082, 0x800000000000808a, 0x8000000080008000,
   0x000000000000808b, 0x0000000080000001, 0x8000000080008081, 0x8000000000008009,
   0x000000000000008a, 0x0000000000000088, 0x0000000080008009, 0x000000008000000a,
   0x000000008000808b, 0x800000000000008b, 0x8000000000008089, 0x8000000000008003,
   0x8000000000008002, 0x8000000000000080, 0x000000000000800a, 0x800000008000000a,
   0x8000000080008081, 0x8000000000008080, 0x0000000080000001, 0x8000000080008008]

/-- One Keccak round: θ, ρ, π, χ, then ι (xor the round constant into lane 0). -/
def keccakRound (st : List Nat) (rc : Nat) : List Nat :=
  let st1 := keccakChi (keccakRhoPi (keccakTheta st))
  st1.set 0 (xor64 (st1.getD 0 0) rc)

/-- The Keccak-f[1600] permutation: 24 rounds. -/
def keccakF (st : List Nat) : List Nat := roundConstants.foldl keccakRound st

/-- A 64-bit lane from up to eight little-endian bytes. -/
def laneFromBytes (bs : List Nat) : Nat := bs.foldr (fun b acc => acc * 256 + b) 0

/-- The eight little-endian bytes of a 64-bit lane. -/
def laneToBytes (w : Nat) : List Nat :=
  [w % 256, w / 2 ^ 8 % 256, w / 2 ^ 16 % 256, w / 2 ^ 24 % 256,
   w / 2 ^ 32 % 256, w / 2 ^ 40 % 256, w / 2 ^ 48 % 256, w / 2 ^ 56 % 256]

/-- The 17 rate lanes of one 136-byte block. -/
def blockLanes (block : List Nat) : List Nat :=
  (List.range 17).map (fun i => laneFromBytes ((block.drop (8 * i)).take 8))

/-- Absorb one 136-byte block: xor it into the first 17 lanes, then permute. -/
def absorbBlock (st block : List Nat) : List Nat :=
  let bl := blockLanes block
  keccakF ((List.range 25).map (fun i =>
    if i < 17 then xor64 (st.getD i 0) (bl.getD i 0) else st.getD i 0))

/-- Original Keccak multi-rate padding at rate 136: append 0x01, zero bytes,
and a final 0x80 (merged to a single 0x81 when one byte is missing). -/
def keccakPad (msg : List Nat) : List Nat :=
  let rem := msg.length % 136
  if rem == 135 then msg ++ [0x81]
  else msg ++ 0x01 :: (List.replicate (134 - rem) 0 ++ [0x80])

/-- Keccak-256: pad, absorb all blocks into the zero state, and squeeze the
first 32 bytes of the final state (lanes 0–3, little-endian). -/
def keccak256 (msg : List Nat) : List Nat :=
  let padded := keccakPad msg
  let finalSt := (List.range (padded.length / 136)).foldl
    (fun st i => absorbBlock st ((padded.drop (136 * i)).take 136))
    (List.replicate 25 0)
  laneToBytes (finalSt.getD 0 0) ++ laneToBytes (finalSt.getD 1 0) ++
    laneToBytes (finalSt.getD 2 0) ++ laneToBytes (finalSt.getD 3 0)

/-! ## AddressDeriver: the three CREATE2 derivation functions -/

/-- The `sha3` crate's incremental hasher state, extensionally: the bytes
absorbed so far.  `Keccak256::new()`. -/
def keccakHasherNew : List Nat := []

/-- `hasher.update(data)`: absorb more bytes. -/
def keccakHasherUpdate (h data : List Nat) : List Nat := h ++ data

/-- `hasher.finalize()`: the digest of everything absorbed. -/
def keccakHasherFinalize (h : List Nat) : List Nat := keccak256 h

/-- `calculate_create2_address` of `src/src/main.rs` (lines 169–179):
keccak256(0xff ++ deployer ++ salt ++ bytecode_hash), bytes 12..32. -/
def calculate_create2_address (deployer salt bytecodeHash : List Nat) : List Nat :=
  let h := keccakHasherNew
  let h := keccakHasherUpdate h [0xff]
  let h := keccakHasherUpdate h deployer
  let h := keccakHasherUpdate h salt
  let h := keccakHasherUpdate h bytecodeHash
  let hash := keccakHasherFinalize h
  hash.drop 12

/-- `compute_create2_address` of `src/vanity-generator/src/main.rs`
(lines 182–191): the same computation in the dragon generator. -/
def compute_create2_address (factory salt bytecodeHash : List Nat) : List Nat :=
  let h := keccakHasherNew
  let h := keccakHasherUpdate h [0xff]
  let h := keccakHasherUpdate h factory
  let h := keccakHasherUpdate h salt
  let h := keccakHasherUpdate h bytecodeHash
  let hash := keccakHasherFinalize h
  hash.drop 12

/-- `calculate_create2_address` of the oracle generator (lines 229–245):
string-based; hex-decodes its three `0x`-prefixed arguments (a failed decode
is a `panic`, modelled as `none`), hashes `0xff ++ factory ++ salt ++
bytecode_hash` in one shot, and formats the last 20 digest bytes as
`0x`-prefixed lowercase hex. -/
def oracle_calculate_create2_address (factory salt bytecodeHash : List Char) :
    Option (List Char) :=
  match hexDecode (factory.drop 2), hexDecode (salt.drop 2),
      hexDecode (bytecodeHash.drop 2) with
  | some fb, some sb, some bb =>
    let input := 0xff :: (fb ++ (sb ++ bb))
    let hash := keccak256 input
    some ('0' :: 'x' :: hexEncode (hash.drop 12))
  | _, _, _ => none

/-- The last `n` elements of a list. -/
def lastN (n : Nat) (xs : List Nat) : List Nat := xs.drop (xs.length - n)

/-! ## PatternMatcher: `matches` and `score` -/

/-- `check_vanity_pattern` of `src/vanity-generator/src/main.rs`
(lines 193–209): lowercase hex of the 20 address bytes must start with
`startsWith` and end with `endsWith`; an empty pattern side passes. -/
def check_vanity_pattern (address : List Nat) (startsWith endsWith : List Char) :
    Bool :=
  let addrHex := (hexEncode address).map Char.toLower
  let startsMatch := if startsWith.isEmpty then true else startsWith.isPrefixOf addrHex
  let endsMatch := if endsWith.isEmpty then true else endsWith.isSuffixOf addrHex
  startsMatch && endsMatch

/-- `is_perfect_match` of the oracle generator (lines 247–253): lowercase the
`0x`-prefixed address string, strip the `0x`, and test the lowercased
pattern sides. -/
def is_perfect_match (address pre suf : List Char) : Bool :=
  let addr := address.map Char.toLower
  let addrBody := addr.drop 2
  (pre.map Char.toLower).isPrefixOf addrBody &&
    (suf.map Char.toLower).isSuffixOf addrBody

/-- Length of the character-by-character run matching the pattern from the
front (a zip with the pattern, stopping at the first mismatch). -/
def prefixRunLen (body tp : List Char) : Nat :=
  ((body.zip tp).takeWhile (fun ab => ab.1 == ab.2)).length

/-- Length of the run matching the pattern from the back: the front run of
the reversed strings. -/
def suffixRunLen (body ts : List Char) : Nat :=
  ((body.reverse.zip ts.reverse).takeWhile (fun ab => ab.1 == ab.2)).length

/-- `calculate_match_score` of the oracle generator (lines 255–281):
ten points per character of matched leading run against the prefix plus ten
per character of matched trailing run against the suffix. -/
def calculate_match_score (address pre suf : List Char) : Nat :=
  let addr := address.map Char.toLower
  let addrBody := addr.drop 2
  let targetPre := pre.map Char.toLower
  let targetSuf := suf.map Char.toLower
  let prefixMatchLen :=
    ((addrBody.zip targetPre).takeWhile (fun ab => ab.1 == ab.2)).length
  let suffixMatchLen :=
    ((addrBody.reverse.zip targetSuf.reverse).takeWhile (fun ab => ab.1 == ab.2)).length
  prefixMatchLen * 10 + suffixMatchLen * 10

/-- The lowercased address body (`address.to_lowercase()` with the leading
`0x` stripped) that both oracle matchers work on. -/
def addrBody (address : List Char) : List Char := (address.map Char.toLower).drop 2

/-- The scenario address `0x6900000000000000000000000000000000007777`
of the spec and of the repository's own `test_vanity_pattern`. -/
def testAddress6977 : List Nat :=
  [0x69] ++ List.replicate 17 0 ++ [0x77, 0x77]

/-! ## SearchWorker of `src/src/main.rs`: `search_vanity_address`
(lines 122–167).  The thread-shared state is seen through explicit traces:
`salts i` is the random 32-byte salt drawn at iteration `i`
(`rand::random()`), and `foundObs i` the value of the shared found-flag this
worker loads at iteration `i`.  `added` accumulates everything the worker
`fetch_add`s into the shared attempt counter, `performed` counts the
derivations it actually executed. -/

/-- How a `search_vanity_address` run ends: returning `Some((salt, address))`
after its own match, returning `None` on another thread's flag, or returning
`None` with its budget exhausted. -/
inductive MOutcome where
  | success (salt address : List Nat)
  | cancelled
  | exhausted
deriving DecidableEq

/-- Whether an outcome is a `success`. -/
def MOutcome.isSucc : MOutcome → Bool
  | .success _ _ => true
  | _ => false

/-- The observable trace of one worker run. -/
structure MRun where
  outcome : MOutcome
  added : Nat
  performed : Nat

/-- The match test of `search_vanity_address` (lines 147–152): the formatted
`0x…` address, lowercased, must start with `"0x" ++ prefix_lower` and end
with `suffix_lower`. -/
def mainMatches (addressStr preL sufL : List Char) : Bool :=
  let addressLower := addressStr.map Char.toLower
  (('0' :: 'x' :: preL.map Char.toLower).isPrefixOf addressLower) &&
    ((sufL.map Char.toLower).isSuffixOf addressLower)

/-- The `for i in 0..max_attempts` loop of `search_vanity_address`, running
with `rem` iterations left (so `i + rem = max_attempts`).  Order inside one
iteration, as in the source: load the flag (return `None`), draw the salt,
derive, test (store the flag and return `Some`), then `fetch_add(1000)` when
`i % 1000 == 0`; after the loop, `fetch_add(max_attempts % 1000)`. -/
def mainWorkerLoop (deployer bytecodeHash : List Nat) (preL sufL : List Char)
    (salts : Nat → List Nat) (foundObs : Nat → Bool) (maxAttempts : Nat) :
    Nat → Nat → Nat → Nat → MRun
  | _, 0, added, performed => ⟨.exhausted, added + maxAttempts % 1000, performed⟩
  | i, rem + 1, added, performed =>
    if foundObs i then ⟨.cancelled, added, performed⟩
    else
      let salt := salts i
      let address := calculate_create2_address deployer salt bytecodeHash
      if mainMatches ('0' :: 'x' :: hexEncode address) preL sufL then
        ⟨.success salt address, added, performed + 1⟩
      else
        mainWorkerLoop deployer bytecodeHash preL sufL salts foundObs maxAttempts
          (i + 1) rem (if i % 1000 == 0 then added + 1000 else added)
          (performed + 1)

/-- One worker's `search_vanity_address` run, from iteration 0. -/
def search_vanity_address (deployer bytecodeHash : List Nat)
    (preL sufL : List Char) (salts : Nat → List Nat) (foundObs : Nat → Bool)
    (maxAttempts : Nat) : MRun :=
  mainWorkerLoop deployer bytecodeHash preL sufL salts foundObs maxAttempts
    0 maxAttempts 0 0

/-- The amount a `fetch_add(1000)` flush contributes over iterations
`i, i+1, …, i+r-1`: 1000 for each iteration index divisible by 1000. -/
def flushCount : Nat → Nat → Nat
  | _, 0 => 0
  | i, r + 1 => (if i % 1000 == 0 then 1000 else 0) + flushCount (i + 1) r

/-- The per-worker attempt budget the coordinator hands out
(`args.max_attempts / args.threads`, line 90 of `src/src/main.rs`; the same
truncating division appears in `search_vanity_salt`, line 128 of
`src/src/vrf_integrator_vanity.rs`). -/
def workerBudget (maxAttempts threadCount : Nat) : Nat := maxAttempts / threadCount

/-! ## Search setup of `src/src/main.rs` `main` (lines 50–64): parse the
deployer address and the bytecode hash before anything is spawned; a failed
`expect`/`panic!` is modelled as an error value. -/

/-- The ways setup dies (lines 51, 55, 57 of `src/src/main.rs`). -/
inductive SetupError where
  | invalidDeployer
  | invalidBytecodeHash
  | wrongHashLength
deriving DecidableEq

/-- `ethers` `Address` parsing (`args.deployer.parse()`): an optional `0x`,
then exactly 40 hex digits. -/
def parseAddress (s : List Char) : Option (List Nat) :=
  let body := if s.take 2 = ['0', 'x'] then s.drop 2 else s
  match hexDecode body with
  | some bs => if bs.length == 20 then some bs else none
  | none => none

/-- The setup phase: deployer parse, bytecode-hash decode, 32-byte length
check — in source order, each failure fatal. -/
def mainSetup (deployerStr bytecodeHashStr : List Char) :
    Except SetupError (List Nat × List Nat) :=
  match parseAddress deployerStr with
  | none => .error .invalidDeployer
  | some deployer =>
    match hexDecode bytecodeHashStr with
    | none => .error .invalidBytecodeHash
    | some bs =>
      if bs.length ≠ 32 then .error .wrongHashLength
      else .ok (deployer, bs)

/-- Whether an `Except` is an `ok`. -/
def setupOk : Except SetupError MRun → Bool
  | .ok _ => true
  | .error _ => false

/-- `main` of `src/src/main.rs`, reduced to the verified core: run setup and,
only when it succeeds, run a worker with the budget `max_attempts / threads`.
On a setup error no worker ever starts and no derivation is attempted. -/
def mainRun (deployerStr bytecodeHashStr preL sufL : List Char)
    (salts : Nat → List Nat) (foundObs : Nat → Bool)
    (maxAttempts threadCount : Nat) : Except SetupError MRun :=
  match mainSetup deployerStr bytecodeHashStr with
  | .error e => .error e
  | .ok (deployer, bytecodeHash) =>
    .ok (search_vanity_address deployer bytecodeHash preL sufL salts foundObs
      (workerBudget maxAttempts threadCount))

/-! ## SearchWorker of the oracle generator (`main`, lines 107–177).
Again the shared atomics are seen through traces: `foundObs k` is the
found-flag value loaded at iteration `k`, and `totalLoad k` the value of the
shared `total_attempts` counter this worker observes at iteration `k`. -/

/-- `BestMatch` (lines 210–227): the per-worker running best partial match. -/
structure OBest where
  address : List Char
  salt : List Char
  score : Nat
  attempts : Nat
deriving DecidableEq

/-- `BestMatch::new()`: the all-zero address and salt, score 0. -/
def OBest.new : OBest :=
  ⟨String.toList "0x0000000000000000000000000000000000000000",
   String.toList "0x0000000000000000000000000000000000000000000000000000000000000000",
   0, 0⟩

/-- The best-match update of lines 149–157: replace the stored record
exactly when the candidate's score is strictly higher. -/
def updateBest (best cand : OBest) : OBest :=
  if cand.score > best.score then cand else best

/-- A `VanityResult`, reduced to the fields the worker computes in the loop. -/
structure OResult where
  salt : List Char
  address : List Char
  attempts : Nat
deriving DecidableEq

/-- How an oracle worker iteration run ends: a perfect match (`Some(result)`),
a break on the found-flag, a break on the global attempt ceiling, or a panic
inside `calculate_create2_address`. -/
inductive OOutcome where
  | found (r : OResult)
  | stoppedFlag
  | stoppedBudget
  | crashed
deriving DecidableEq

/-- `true` unless the run has ended by hitting the attempt ceiling. -/
def notBudgetStop : Option OOutcome → Bool
  | some .stoppedBudget => false
  | _ => true

/-- The oracle worker loop (lines 112–174), fuel-limited since with
`max_attempts = 0` it has no bound of its own: check the found-flag, check
the ceiling (`max_attempts > 0 && total ≥ max_attempts`), draw a salt,
derive, return on a perfect match, otherwise score and update the local
best, bump the local counter and flush it at the progress interval.
`none` means the fuel ran out with the loop still going. -/
def oracleWorkerLoop (preL sufL factory bytecodeHash : List Char)
    (maxAttempts progressInterval : Nat) (salts : Nat → List Nat)
    (foundObs : Nat → Bool) (totalLoad : Nat → Nat) :
    Nat → Nat → Nat → OBest → Option OOutcome
  | 0, _, _, _ => none
  | fuel + 1, k, attempts, best =>
    if foundObs k then some .stoppedFlag
    else if maxAttempts > 0 ∧ totalLoad k ≥ maxAttempts then some .stoppedBudget
    else
      let salt := '0' :: 'x' :: hexEncode (salts k)
      match oracle_calculate_create2_address factory salt bytecodeHash with
      | none => some .crashed
      | some address =>
        if is_perfect_match address preL sufL then
          some (.found ⟨salt, address, totalLoad k + attempts⟩)
        else
          let score := calculate_match_score address preL sufL
          let best1 := updateBest best ⟨address, salt, score, totalLoad k + attempts⟩
          let attempts1 := attempts + 1
          if attempts1 % progressInterval == 0 then
            oracleWorkerLoop preL sufL factory bytecodeHash maxAttempts
              progressInterval salts foundObs totalLoad fuel (k + 1) 0 best1
          else
            oracleWorkerLoop preL sufL factory bytecodeHash maxAttempts
              progressInterval salts foundObs totalLoad fuel (k + 1) attempts1 best1

/-! ## Basic facts about the hex encoding and the digest -/

theorem toLower_nibbleChar (n : Nat) : Char.toLower (nibbleChar n) = nibbleChar n := by
  rcases Nat.lt_or_ge n 16 with h | h
  · interval_cases n <;> decide
  · have hn : nibbleChar n = '0' := by
      unfold nibbleChar
      have hl : hexDigits.length = 16 := by decide
      exact List.getD_eq_default _ _ (by omega)
    rw [hn]; decide

theorem hexEncode_map_toLower (bs : List Nat) :
    (hexEncode bs).map Char.toLower = hexEncode bs := by
  induction bs with
  | nil => rfl
  | cons b bs ih => simp [hexEncode, toLower_nibbleChar, ih]

theorem hexEncode_length (bs : List Nat) : (hexEncode bs).length = 2 * bs.length := by
  induction bs with
  | nil => rfl
  | cons b bs ih => simp [hexEncode, ih]; omega

theorem keccak256_length (msg : List Nat) : (keccak256 msg).length = 32 := by
  simp [keccak256, laneToBytes]

theorem hexVal_nibbleChar (n : Nat) (h : n < 16) : hexVal (nibbleChar n) = some n := by
  interval_cases n <;> decide

theorem hexDecode_hexEncode (bs : List Nat) (h : ∀ b ∈ bs, b < 256) :
    hexDecode (hexEncode bs) = some bs := by
  induction bs with
  | nil => rfl
  | cons b bs ih =>
    have hb : b < 256 := h b (by simp)
    have ih1 := ih (fun x hx => h x (by simp [hx]))
    simp only [hexEncode, hexDecode, ih1,
      hexVal_nibbleChar (b / 16 % 16) (by omega),
      hexVal_nibbleChar (b % 16) (by omega)]
    have : 16 * (b / 16 % 16) + b % 16 = b := by omega
    rw [this]

set_option maxRecDepth 100000 in
/-- Golden vector: the digest of the empty message. -/
theorem keccak256_empty_vector :
    hexEncode (keccak256 []) =
      String.toList "c5d2460186f7233c927e7db2dcc703c0e500b653ca82273b7bfad8045d85a470" := by
  decide

set_option maxRecDepth 100000 in
/-- Golden vector: the digest of the three bytes "abc". -/
theorem keccak256_abc_vector :
    hexEncode (keccak256 [0x61, 0x62, 0x63]) =
      String.toList "4e03657aea45a94fc7d47ba826c8d667c0d1e6e33a64a036ec44f58fa12d6c45" := by
  decide

/-! ## C1 — the CREATE2 derivation formula -/

/-- C1: for a 20-byte factory, 32-byte salt and 32-byte code-hash,
`calculate_create2_address` is the last 20 bytes of the Keccak-256 digest of
the 85-byte buffer `0xff ++ factory ++ salt ++ code_hash`. -/
theorem create2_is_last20_of_keccak (deployer salt bytecodeHash : List Nat)
    (hd : deployer.length = 20) (hs : salt.length = 32)
    (hb : bytecodeHash.length = 32) :
    calculate_create2_address deployer salt bytecodeHash
        = lastN 20 (keccak256 (0xff :: (deployer ++ salt ++ bytecodeHash)))
      ∧ (0xff :: (deployer ++ salt ++ bytecodeHash)).length = 85 := by
  constructor
  · simp [calculate_create2_address, keccakHasherNew, keccakHasherUpdate,
      keccakHasherFinalize, lastN, keccak256_length, List.append_assoc]
  · simp [hd, hs, hb]

/-- C1 witness at the all-zero input. -/
theorem create2_is_last20_of_keccak_witness :
    calculate_create2_address (List.replicate 20 0) (List.replicate 32 0)
          (List.replicate 32 0)
        = lastN 20 (keccak256 (0xff :: (List.replicate 20 0 ++ List.replicate 32 0
            ++ List.replicate 32 0)))
      ∧ (0xff :: (List.replicate 20 0 ++ List.replicate 32 0
          ++ List.replicate 32 0)).length = 85 :=
  create2_is_last20_of_keccak _ _ _ (by decide) (by decide) (by decide)

/-! ## Run-length facts for the matchers and the score -/

theorem length_takeWhile_le {α : Type} (p : α → Bool) (l : List α) :
    (l.takeWhile p).length ≤ l.length := by
  induction l with
  | nil => simp [List.takeWhile]
  | cons a l ih =>
    simp only [List.takeWhile]
    split
    · simpa using Nat.succ_le_succ ih
    · simp

theorem zip_takeWhile_full (tp : List Char) :
    ∀ body : List Char, tp.isPrefixOf body = true →
      ((body.zip tp).takeWhile (fun ab => ab.1 == ab.2)).length = tp.length := by
  induction tp with
  | nil => intro body _; simp
  | cons t tp ih =>
    intro body h
    cases body with
    | nil => simp [List.isPrefixOf] at h
    | cons b body =>
      simp only [List.isPrefixOf, Bool.and_eq_true] at h
      obtain ⟨htb, hrest⟩ := h
      have hbt : (b == t) = true := by
        have : t = b := by simpa using htb
        simp [this]
      simp only [List.zip_cons_cons, List.takeWhile, hbt, List.length_cons]
      rw [show List.zipWith Prod.mk body tp = body.zip tp from rfl, ih body hrest]

theorem zip_takeWhile_le (body tp : List Char) :
    ((body.zip tp).takeWhile (fun ab => ab.1 == ab.2)).length ≤ tp.length := by
  calc ((body.zip tp).takeWhile (fun ab => ab.1 == ab.2)).length
      ≤ (body.zip tp).length := length_takeWhile_le _ _
    _ ≤ tp.length := by simp [List.length_zip]

/-! ## C2 — pattern matching is prefix/suffix matching on lowercase hex -/

/-- C2: both matchers return true exactly when the lowercase hex encoding of
the address starts with the lowercased prefix pattern and ends with the
lowercased suffix pattern (an empty side passing trivially), and the three
scenario checks of the spec hold. -/
theorem pattern_matches_iff :
    (∀ (address : List Nat) (p s : List Char),
      check_vanity_pattern address (p.map Char.toLower) (s.map Char.toLower)
        = ((p.map Char.toLower).isPrefixOf (hexEncode address)
            && (s.map Char.toLower).isSuffixOf (hexEncode address)))
  ∧ (∀ (address : List Nat) (p s : List Char),
      is_perfect_match ('0' :: 'x' :: hexEncode address) p s
        = ((p.map Char.toLower).isPrefixOf (hexEncode address)
            && (s.map Char.toLower).isSuffixOf (hexEncode address)))
  ∧ check_vanity_pattern testAddress6977 (String.toList "69") (String.toList "7777")
      = true
  ∧ check_vanity_pattern testAddress6977 (String.toList "70") (String.toList "7777")
      = false
  ∧ check_vanity_pattern testAddress6977 (String.toList "69") (String.toList "8888")
      = false := by
  refine ⟨?_, ?_, by decide, by decide, by decide⟩
  · intro address p s
    simp only [check_vanity_pattern, hexEncode_map_toLower]
    cases p <;> cases s <;> simp
  · intro address p s
    have h0 : Char.toLower '0' = '0' := by decide
    have hx : Char.toLower 'x' = 'x' := by decide
    simp [is_perfect_match, h0, hx, hexEncode_map_toLower]

/-! ## C4 — the match score: formula, strict monotonicity, maximum -/

/-- C4: the score is ten points per matched leading character plus ten per
matched trailing character; lengthening one matching run (the other side
unchanged) strictly increases the score; a perfect match attains
`(|p| + |s|) * 10`, which no address exceeds. -/
theorem score_formula_monotone_max :
    (∀ a p s : List Char, calculate_match_score a p s
        = prefixRunLen (addrBody a) (p.map Char.toLower) * 10
          + suffixRunLen (addrBody a) (s.map Char.toLower) * 10)
  ∧ (∀ a1 a2 p s : List Char,
      prefixRunLen (addrBody a1) (p.map Char.toLower)
          < prefixRunLen (addrBody a2) (p.map Char.toLower)
        → suffixRunLen (addrBody a1) (s.map Char.toLower)
          = suffixRunLen (addrBody a2) (s.map Char.toLower)
        → calculate_match_score a1 p s < calculate_match_score a2 p s)
  ∧ (∀ a1 a2 p s : List Char,
      suffixRunLen (addrBody a1) (s.map Char.toLower)
          < suffixRunLen (addrBody a2) (s.map Char.toLower)
        → prefixRunLen (addrBody a1) (p.map Char.toLower)
          = prefixRunLen (addrBody a2) (p.map Char.toLower)
        → calculate_match_score a1 p s < calculate_match_score a2 p s)
  ∧ (∀ a p s : List Char, is_perfect_match a p s = true
      → calculate_match_score a p s = (p.length + s.length) * 10)
  ∧ (∀ a p s : List Char,
      calculate_match_score a p s ≤ (p.length + s.length) * 10) := by
  have hformula : ∀ a p s : List Char, calculate_match_score a p s
      = prefixRunLen (addrBody a) (p.map Char.toLower) * 10
        + suffixRunLen (addrBody a) (s.map Char.toLower) * 10 := by
    intro a p s
    rfl
  refine ⟨hformula, ?_, ?_, ?_, ?_⟩
  · intro a1 a2 p s hlt heq
    rw [hformula, hformula, heq]
    have := hlt
    omega
  · intro a1 a2 p s hlt heq
    rw [hformula, hformula, heq]
    omega
  · intro a p s hmatch
    simp only [is_perfect_match, Bool.and_eq_true] at hmatch
    obtain ⟨hpre, hsuf⟩ := hmatch
    have h1 : prefixRunLen (addrBody a) (p.map Char.toLower)
        = (p.map Char.toLower).length :=
      zip_takeWhile_full _ _ hpre
    have h2 : suffixRunLen (addrBody a) (s.map Char.toLower)
        = (s.map Char.toLower).reverse.length := by
      unfold List.isSuffixOf at hsuf
      exact zip_takeWhile_full _ _ hsuf
    rw [hformula, h1, h2]
    simp
    omega
  · intro a p s
    have h1 := zip_takeWhile_le (addrBody a) (p.map Char.toLower)
    have h2 := zip_takeWhile_le (addrBody a).reverse (s.map Char.toLower).reverse
    rw [hformula]
    unfold prefixRunLen suffixRunLen
    simp only [List.length_map] at h1
    simp only [List.length_reverse, List.length_map] at h2
    omega

/-! ## C9 — determinism and cross-variant agreement of the derivation -/

/-- C9: the registry and dragon generators' derivations are one and the same
function of the three byte inputs, and the oracle generator's string-based
derivation agrees with them on every hex-encoded input: the derived address
is a function of `(factory, salt, code_hash)` only. -/
theorem derive_deterministic :
    (∀ deployer salt bytecodeHash : List Nat,
      calculate_create2_address deployer salt bytecodeHash
        = compute_create2_address deployer salt bytecodeHash)
  ∧ (∀ f s b : List Nat, (∀ x ∈ f, x < 256) → (∀ x ∈ s, x < 256)
      → (∀ x ∈ b, x < 256) →
      oracle_calculate_create2_address ('0' :: 'x' :: hexEncode f)
          ('0' :: 'x' :: hexEncode s) ('0' :: 'x' :: hexEncode b)
        = some ('0' :: 'x' :: hexEncode (calculate_create2_address f s b))) := by
  constructor
  · intro deployer salt bytecodeHash
    rfl
  · intro f s b hf hs hb
    simp only [oracle_calculate_create2_address, List.drop_succ_cons,
      List.drop_zero, hexDecode_hexEncode f hf, hexDecode_hexEncode s hs,
      hexDecode_hexEncode b hb]
    simp [calculate_create2_address, keccakHasherNew, keccakHasherUpdate,
      keccakHasherFinalize, List.append_assoc]

/-! ## Accounting facts about `search_vanity_address` (C3, C6, C10) -/

theorem flushCount_eq (r : Nat) : ∀ i : Nat,
    flushCount i r = 1000 * ((i + r + 999) / 1000) - 1000 * ((i + 999) / 1000) := by
  induction r with
  | zero => intro i; simp [flushCount]
  | succ r ih =>
    intro i
    simp only [flushCount, ih (i + 1)]
    split
    · rename_i h
      have h1 : i % 1000 = 0 := by simpa using h
      omega
    · rename_i h
      have h1 : ¬ i % 1000 = 0 := by simpa using h
      omega

theorem mainLoop_exhausted (deployer bytecodeHash : List Nat) (preL sufL : List Char)
    (salts : Nat → List Nat) (foundObs : Nat → Bool) (ma : Nat) :
    ∀ (rem i added performed : Nat),
      (mainWorkerLoop deployer bytecodeHash preL sufL salts foundObs ma
          i rem added performed).outcome = .exhausted →
        (mainWorkerLoop deployer bytecodeHash preL sufL salts foundObs ma
            i rem added performed).added = added + flushCount i rem + ma % 1000
        ∧ (mainWorkerLoop deployer bytecodeHash preL sufL salts foundObs ma
            i rem added performed).performed = performed + rem := by
  intro rem
  induction rem with
  | zero =>
    intro i added performed _
    simp [mainWorkerLoop, flushCount]
  | succ rem ih =>
    intro i added performed h
    by_cases hf : foundObs i
    · simp [mainWorkerLoop, hf] at h
    · by_cases hm : mainMatches
        ('0' :: 'x' :: hexEncode (calculate_create2_address deployer (salts i)
          bytecodeHash)) preL sufL
      · simp [mainWorkerLoop, hf, hm] at h
      · simp only [mainWorkerLoop, hf, if_false, Bool.false_eq_true, hm] at h ⊢
        obtain ⟨ha, hp⟩ := ih (i + 1)
          (if i % 1000 == 0 then added + 1000 else added) (performed + 1) h
        refine ⟨?_, by omega⟩
        rw [ha]
        simp only [flushCount]
        split <;> omega

theorem mainLoop_success (deployer bytecodeHash : List Nat) (preL sufL : List Char)
    (salts : Nat → List Nat) (foundObs : Nat → Bool) (ma : Nat) :
    ∀ (rem i added performed : Nat) (sa ad : List Nat),
      (mainWorkerLoop deployer bytecodeHash preL sufL salts foundObs ma
          i rem added performed).outcome = .success sa ad →
        ∃ k, (mainWorkerLoop deployer bytecodeHash preL sufL salts foundObs ma
            i rem added performed).performed = performed + k + 1
          ∧ (mainWorkerLoop deployer bytecodeHash preL sufL salts foundObs ma
              i rem added performed).added = added + flushCount i k := by
  intro rem
  induction rem with
  | zero => intro i added performed sa ad h; simp [mainWorkerLoop] at h
  | succ rem ih =>
    intro i added performed sa ad h
    by_cases hf : foundObs i
    · simp [mainWorkerLoop, hf] at h
    · by_cases hm : mainMatches
        ('0' :: 'x' :: hexEncode (calculate_create2_address deployer (salts i)
          bytecodeHash)) preL sufL
      · refine ⟨0, ?_, ?_⟩ <;>
          simp [mainWorkerLoop, hf, hm, flushCount]
      · simp only [mainWorkerLoop, hf, if_false, Bool.false_eq_true, hm] at h ⊢
        obtain ⟨k, hp, ha⟩ := ih (i + 1)
          (if i % 1000 == 0 then added + 1000 else added) (performed + 1) sa ad h
        refine ⟨k + 1, by omega, ?_⟩
        rw [ha]
        simp only [flushCount]
        split <;> omega

theorem mainLoop_performed_le (deployer bytecodeHash : List Nat)
    (preL sufL : List Char) (salts : Nat → List Nat) (foundObs : Nat → Bool)
    (ma : Nat) :
    ∀ (rem i added performed : Nat),
      (mainWorkerLoop deployer bytecodeHash preL sufL salts foundObs ma
          i rem added performed).performed ≤ performed + rem := by
  intro rem
  induction rem with
  | zero => intro i added performed; simp [mainWorkerLoop]
  | succ rem ih =>
    intro i added performed
    by_cases hf : foundObs i
    · simp [mainWorkerLoop, hf]
    · by_cases hm : mainMatches
        ('0' :: 'x' :: hexEncode (calculate_create2_address deployer (salts i)
          bytecodeHash)) preL sufL
      · simp [mainWorkerLoop, hf, hm]
      · simp only [mainWorkerLoop, hf, if_false, Bool.false_eq_true, hm]
        calc (mainWorkerLoop deployer bytecodeHash preL sufL salts foundObs ma
              (i + 1) rem (if i % 1000 == 0 then added + 1000 else added)
              (performed + 1)).performed
            ≤ (performed + 1) + rem := ih (i + 1) _ (performed + 1)
          _ = performed + (rem + 1) := by omega

/-! ## C3 — what the worker really adds to the shared attempt counter -/

/-- C3 counterexample: with an empty prefix and suffix every address matches,
so the very first iteration succeeds after one derivation attempt — and the
worker returns without ever having added that attempt to the shared counter:
it folded in 0, not 1. -/
theorem attempt_counter_cx :
    (search_vanity_address (List.replicate 20 0) (List.replicate 32 0) [] []
        (fun _ => List.replicate 32 0) (fun _ => false) 5).outcome.isSucc = true
    ∧ (search_vanity_address (List.replicate 20 0) (List.replicate 32 0) [] []
        (fun _ => List.replicate 32 0) (fun _ => false) 5).added = 0
    ∧ (search_vanity_address (List.replicate 20 0) (List.replicate 32 0) [] []
        (fun _ => List.replicate 32 0) (fun _ => false) 5).performed = 1
    ∧ ((search_vanity_address (List.replicate 20 0) (List.replicate 32 0) [] []
          (fun _ => List.replicate 32 0) (fun _ => false) 5).added
        == (search_vanity_address (List.replicate 20 0) (List.replicate 32 0) [] []
          (fun _ => List.replicate 32 0) (fun _ => false) 5).performed) = false :=
  ⟨rfl, rfl, rfl, rfl⟩

/-- C3 as it actually holds of `search_vanity_address`: an Exhausted run of
budget `ma` performs exactly `ma` attempts but adds
`1000 * ⌈ma/1000⌉ + ma % 1000` (the two agree exactly when `1000 ∣ ma`,
because the worker flushes 1000 at the start of every thousand-block and the
final `ma % 1000` remainder on top); a Success run that performed `n`
attempts has added only the `1000 * ⌈(n-1)/1000⌉` of its completed flushes —
the matching attempt and the current block are never folded in. -/
theorem attempt_counter_accounting :
    ∀ (deployer bytecodeHash : List Nat) (preL sufL : List Char)
      (salts : Nat → List Nat) (foundObs : Nat → Bool) (ma : Nat),
    ((search_vanity_address deployer bytecodeHash preL sufL salts foundObs
          ma).outcome = .exhausted →
      (search_vanity_address deployer bytecodeHash preL sufL salts foundObs
          ma).added = 1000 * ((ma + 999) / 1000) + ma % 1000
      ∧ (search_vanity_address deployer bytecodeHash preL sufL salts foundObs
          ma).performed = ma)
    ∧ (∀ sa ad, (search_vanity_address deployer bytecodeHash preL sufL salts
          foundObs ma).outcome = .success sa ad →
      (search_vanity_address deployer bytecodeHash preL sufL salts foundObs
          ma).added
        = 1000 * (((search_vanity_address deployer bytecodeHash preL sufL salts
            foundObs ma).performed + 998) / 1000)
      ∧ 1 ≤ (search_vanity_address deployer bytecodeHash preL sufL salts foundObs
          ma).performed)
    ∧ (ma % 1000 = 0 →
        (search_vanity_address deployer bytecodeHash preL sufL salts foundObs
          ma).outcome = .exhausted →
        (search_vanity_address deployer bytecodeHash preL sufL salts foundObs
          ma).added
          = (search_vanity_address deployer bytecodeHash preL sufL salts foundObs
            ma).performed) := by
  intro deployer bytecodeHash preL sufL salts foundObs ma
  have hex : (search_vanity_address deployer bytecodeHash preL sufL salts foundObs
        ma).outcome = .exhausted →
      (search_vanity_address deployer bytecodeHash preL sufL salts foundObs
        ma).added = 1000 * ((ma + 999) / 1000) + ma % 1000
      ∧ (search_vanity_address deployer bytecodeHash preL sufL salts foundObs
        ma).performed = ma := by
    intro h
    obtain ⟨ha, hp⟩ := mainLoop_exhausted deployer bytecodeHash preL sufL salts
      foundObs ma ma 0 0 0 h
    unfold search_vanity_address
    rw [ha, hp, flushCount_eq]
    omega
  refine ⟨hex, ?_, ?_⟩
  · intro sa ad h
    obtain ⟨k, hp, ha⟩ := mainLoop_success deployer bytecodeHash preL sufL salts
      foundObs ma ma 0 0 0 sa ad h
    unfold search_vanity_address
    rw [ha, hp, flushCount_eq]
    omega
  · intro hmod h
    obtain ⟨ha, hp⟩ := hex h
    rw [ha, hp]
    omega

/-! ## C10 — the coordinator's truncating budget partition -/

/-- C10: each worker is handed the budget `max_attempts / threads` (truncating
division) and never performs more attempts than that, so all `threads`
workers together perform at most `threads * (max_attempts / threads)`
attempts — never more than `max_attempts`, short of it by exactly
`max_attempts % threads`, and zero when `max_attempts < threads`. -/
theorem budget_partition :
    ∀ (ma tc : Nat),
    (∀ (deployer bytecodeHash : List Nat) (preL sufL : List Char)
        (salts : Nat → List Nat) (foundObs : Nat → Bool),
      (search_vanity_address deployer bytecodeHash preL sufL salts foundObs
        (workerBudget ma tc)).performed ≤ workerBudget ma tc)
    ∧ tc * workerBudget ma tc ≤ ma
    ∧ ma - tc * workerBudget ma tc = ma % tc
    ∧ (0 < tc → ma % tc < tc)
    ∧ (ma < tc → workerBudget ma tc = 0)
    ∧ (∀ (deployer bytecodeHash : List Nat) (preL sufL : List Char)
        (salts : Nat → Nat → List Nat) (foundObs : Nat → Nat → Bool),
      Finset.sum (Finset.range tc) (fun w =>
        (search_vanity_address deployer bytecodeHash preL sufL (salts w)
          (foundObs w) (workerBudget ma tc)).performed) ≤ ma) := by
  intro ma tc
  have hone : ∀ (deployer bytecodeHash : List Nat) (preL sufL : List Char)
      (salts : Nat → List Nat) (foundObs : Nat → Bool),
      (search_vanity_address deployer bytecodeHash preL sufL salts foundObs
        (workerBudget ma tc)).performed ≤ workerBudget ma tc := by
    intro deployer bytecodeHash preL sufL salts foundObs
    have := mainLoop_performed_le deployer bytecodeHash preL sufL salts foundObs
      (workerBudget ma tc) (workerBudget ma tc) 0 0 0
    rw [search_vanity_address]
    omega
  have htot : tc * workerBudget ma tc ≤ ma := by
    rw [workerBudget, Nat.mul_comm]
    exact Nat.div_mul_le_self ma tc
  refine ⟨hone, htot, ?_, fun h => Nat.mod_lt ma h, fun h => Nat.div_eq_of_lt h, ?_⟩
  · exact Nat.sub_eq_of_eq_add (Nat.mod_add_div ma tc).symm
  · intro deployer bytecodeHash preL sufL salts foundObs
    calc Finset.sum (Finset.range tc) (fun w =>
          (search_vanity_address deployer bytecodeHash preL sufL (salts w)
            (foundObs w) (workerBudget ma tc)).performed)
        ≤ (Finset.range tc).card • workerBudget ma tc :=
          Finset.sum_le_card_nsmul _ _ _
            (fun w _ => hone deployer bytecodeHash preL sufL (salts w) (foundObs w))
      _ = tc * workerBudget ma tc := by simp [Nat.smul_one_eq_cast]
      _ ≤ ma := htot

/-! ## C6 — `max_attempts = 0`: unbounded in the oracle generator, an
immediate zero budget in `src/src/main.rs` -/

/-- C6 counterexample: in `src/src/main.rs`, `max_attempts = 0` makes the
coordinator hand each worker the budget `0 / threads = 0`, and the worker
loop terminates at once in the Exhausted state after zero derivation
attempts — the search is not unbounded there. -/
theorem zero_max_attempts_exhausts_cx :
    (search_vanity_address (List.replicate 20 0) (List.replicate 32 0)
        (String.toList "69") (String.toList "0777")
        (fun _ => List.replicate 32 0) (fun _ => false)
        (workerBudget 0 8)).outcome = .exhausted
    ∧ (search_vanity_address (List.replicate 20 0) (List.replicate 32 0)
        (String.toList "69") (String.toList "0777")
        (fun _ => List.replicate 32 0) (fun _ => false)
        (workerBudget 0 8)).performed = 0 :=
  ⟨rfl, rfl⟩

/-- C6 as it holds of the oracle generator's worker loop: with
`max_attempts = 0` the ceiling test `max_attempts > 0 && total ≥ max_attempts`
can never fire, so however long the loop runs it never ends in the
budget-stop state — it can only end by a perfect match, by the found-flag,
or by a decode panic. -/
theorem oracle_unbounded_no_budget_stop :
    ∀ (preL sufL factory bytecodeHash : List Char) (progressInterval : Nat)
      (salts : Nat → List Nat) (foundObs : Nat → Bool) (totalLoad : Nat → Nat)
      (fuel k attempts : Nat) (best : OBest),
      notBudgetStop (oracleWorkerLoop preL sufL factory bytecodeHash 0
        progressInterval salts foundObs totalLoad fuel k attempts best) = true := by
  intro preL sufL factory bytecodeHash progressInterval salts foundObs totalLoad fuel
  induction fuel with
  | zero => intro k attempts best; rfl
  | succ fuel ih =>
    intro k attempts best
    rw [oracleWorkerLoop]
    split
    · rfl
    · split
      · rename_i hcond
        exact absurd hcond.1 (by omega)
      · dsimp only
        split
        · rfl
        · split
          · rfl
          · split
            · exact ih _ _ _
            · exact ih _ _ _

/-! ## C7 — malformed code-hash input fails at setup, before any search -/

/-- C7: when the bytecode-hash string does not hex-decode, or decodes to
anything but exactly 32 bytes, the whole run is a setup error: no worker is
started and no derivation attempt is made (the search result exists only in
the `ok` branch of `mainRun`). -/
theorem invalid_hash_fails_fast (deployerStr bytecodeHashStr preL sufL : List Char)
    (salts : Nat → List Nat) (foundObs : Nat → Bool) (ma tc : Nat)
    (hbad : hexDecode bytecodeHashStr = none
      ∨ ∀ bs, hexDecode bytecodeHashStr = some bs → bs.length ≠ 32) :
    setupOk (mainRun deployerStr bytecodeHashStr preL sufL salts foundObs ma tc)
      = false := by
  rw [mainRun, mainSetup]
  cases hpa : parseAddress deployerStr with
  | none => rfl
  | some deployer =>
    cases hdec : hexDecode bytecodeHashStr with
    | none => rfl
    | some bs =>
      rcases hbad with hnone | hlen
      · rw [hdec] at hnone; cases hnone
      · have hne := hlen bs hdec
        simp only [if_pos hne]
        rfl

/-- C7 witness: a well-formed deployer with the two-character non-hex
bytecode hash "zz". -/
theorem invalid_hash_fails_fast_witness :
    setupOk (mainRun
      (String.toList "0000000000000000000000000000000000000000")
      (String.toList "zz") [] [] (fun _ => List.replicate 32 0) (fun _ => false)
      1000 8) = false :=
  invalid_hash_fails_fast _ _ _ _ _ _ _ _ (Or.inl (by decide))

/-! ## C8 — the per-worker BestMatch replacement discipline -/

theorem updateBest_score (b c : OBest) :
    (updateBest b c).score = Nat.max b.score c.score := by
  unfold updateBest
  split
  · rename_i h
    exact (Nat.max_eq_right (Nat.le_of_lt h)).symm
  · rename_i h
    exact (Nat.max_eq_left (Nat.le_of_not_lt h)).symm

theorem foldl_max_init_le (cs : List OBest) :
    ∀ m : Nat, m ≤ cs.foldl (fun a c => Nat.max a c.score) m := by
  induction cs with
  | nil => intro m; simp
  | cons c cs ih =>
    intro m
    simp only [List.foldl_cons]
    calc m ≤ Nat.max m c.score := Nat.le_max_left _ _
      _ ≤ cs.foldl (fun a c => Nat.max a c.score) (Nat.max m c.score) := ih _

theorem mem_le_foldl_max (cs : List OBest) :
    ∀ (m : Nat) (c : OBest), c ∈ cs →
      c.score ≤ cs.foldl (fun a x => Nat.max a x.score) m := by
  induction cs with
  | nil => intro m c hc; cases hc
  | cons d cs ih =>
    intro m c hc
    simp only [List.foldl_cons]
    rcases List.mem_cons.mp hc with rfl | h
    · calc c.score ≤ Nat.max m c.score := Nat.le_max_right _ _
        _ ≤ cs.foldl (fun a x => Nat.max a x.score) (Nat.max m c.score) :=
          foldl_max_init_le cs _
    · exact ih _ c h

theorem foldl_updateBest_score (cs : List OBest) : ∀ b : OBest,
    (cs.foldl updateBest b).score
      = cs.foldl (fun m c => Nat.max m c.score) b.score := by
  induction cs with
  | nil => intro b; rfl
  | cons c cs ih =>
    intro b
    simp only [List.foldl_cons, ih, updateBest_score]

/-- C8: the `BestMatch` slot is replaced exactly on a strictly higher score —
an equal or lower score leaves it untouched, any replacement strictly
increases the stored score, and after any sequence of candidates the stored
score is the maximum of the initial score and every score seen. -/
theorem best_match_update :
    (∀ b c : OBest, c.score ≤ b.score → updateBest b c = b)
  ∧ (∀ b c : OBest, b.score < c.score → updateBest b c = c)
  ∧ (∀ b c : OBest, updateBest b c ≠ b →
      b.score < (updateBest b c).score ∧ updateBest b c = c)
  ∧ (∀ (b : OBest) (cs : List OBest),
      (cs.foldl updateBest b).score
        = cs.foldl (fun m c => Nat.max m c.score) b.score)
  ∧ (∀ (b : OBest) (cs : List OBest) (c : OBest), c ∈ cs →
      c.score ≤ (cs.foldl updateBest b).score)
  ∧ (∀ (b : OBest) (cs : List OBest), b.score ≤ (cs.foldl updateBest b).score) := by
  refine ⟨?_, ?_, ?_, fun b cs => foldl_updateBest_score cs b, ?_, ?_⟩
  · intro b c h
    unfold updateBest
    rw [if_neg (by omega)]
  · intro b c h
    unfold updateBest
    rw [if_pos h]
  · intro b c h
    by_cases hlt : b.score < c.score
    · constructor
      · rw [updateBest_score]
        exact Nat.lt_of_lt_of_le hlt (Nat.le_max_right _ _)
      · unfold updateBest; rw [if_pos hlt]
    · exfalso
      apply h
      unfold updateBest
      rw [if_neg hlt]
  · intro b cs c hc
    rw [foldl_updateBest_score]
    exact mem_le_foldl_max cs b.score c hc
  · intro b cs
    rw [foldl_updateBest_score]
    exact foldl_max_init_le cs b.score

/-- C8 witness: a concrete lower-score candidate is ignored, a concrete
higher-score candidate replaces and strictly raises the stored score. -/
theorem best_match_update_witness :
    updateBest ⟨[], [], 5, 0⟩ ⟨[], [], 3, 1⟩ = (⟨[], [], 5, 0⟩ : OBest)
    ∧ updateBest ⟨[], [], 5, 0⟩ ⟨[], [], 8, 1⟩ = (⟨[], [], 8, 1⟩ : OBest)
    ∧ ((⟨[], [], 5, 0⟩ : OBest).score
          < (updateBest ⟨[], [], 5, 0⟩ ⟨[], [], 8, 1⟩).score
        ∧ updateBest ⟨[], [], 5, 0⟩ ⟨[], [], 8, 1⟩ = (⟨[], [], 8, 1⟩ : OBest)) :=
  ⟨best_match_update.1 _ _ (by decide),
   best_match_update.2.1 _ _ (by decide),
   best_match_update.2.2.1 _ _ (by decide)⟩
